import Mathlib

/-!
Shallow embedding of the `rate-log` Rust crate (src/lib.rs).

Modelling conventions:
* `Instant` timestamps and `Duration` values are nanosecond counts (`Nat`).
  `Instant::duration_since` saturates at zero, which truncated `Nat`
  subtraction models exactly.
* The `u32` repeat counter is a `Nat` reduced modulo `2 ^ 32` on increment,
  mirroring release-mode wrapping arithmetic.
* `RateLog::log` prints with `println!`; the model collects the printed
  lines, in order, in `StepResult.printed`.  The `#[cfg(test)]` capture
  field `output` receives strings via `push_str`; the model collects those
  in `StepResult.captured`.
* The branch taken by `log` is read off as a `Decision` value, matching the
  spec's `observe(message, now) -> Decision` interface: the new-message
  branch is `emit`, a repeat below the threshold is `silent`, a triggering
  repeat is `notice` carrying the captured count and duration.
-/

namespace RateLogModel

/-- The `Limit` enum: count-based (`Rate(u32)`) or duration-based
(`Duration(Duration)`) rate limiting. -/
inductive Limit where
  | rate (n : Nat) : Limit
  | duration (d : Nat) : Limit
deriving DecidableEq, Repr

/-- The private `State` struct: repeat count, accumulated duration and the
timestamp of the last call. -/
structure State where
  count : Nat
  duration : Nat
  last_timestamp : Option Nat
deriving DecidableEq, Repr

/-- `State::new()`: all counters zero, no timestamp. -/
def State.new : State :=
  { count := 0, duration := 0, last_timestamp := none }

/-- `State::reset(&mut self)`: returns the state with all fields cleared. -/
def State.reset (_s : State) : State :=
  { count := 0, duration := 0, last_timestamp := none }

/-- `State::exceeds_limit`: `count >= limit` for `Rate`, `duration >= limit`
for `Duration`. -/
def State.exceeds_limit (s : State) (l : Limit) : Bool :=
  match l with
  | .rate limit_count => decide (limit_count ≤ s.count)
  | .duration limit_duration => decide (limit_duration ≤ s.duration)

/-- The `RateLog` struct: configured limit, tracking state, and the last
logged message (initially the empty string). -/
structure RateLog where
  limit : Limit
  current : State
  message : String
deriving DecidableEq, Repr

/-- `RateLog::new(limit)`: fresh state, empty message. -/
def RateLog.new (limit : Limit) : RateLog :=
  { limit := limit, current := State.new, message := "" }

/-- `format_duration`: seconds-scaled truncating rendering.  The argument is
a duration in nanoseconds; `as_secs` is division by `10 ^ 9` and `as_millis`
is division by `10 ^ 6`, both truncating, exactly as in Rust. -/
def format_duration (duration : Nat) : String :=
  let total_secs := duration / 1000000000
  if 3600 ≤ total_secs then
    toString (total_secs / 3600) ++ "h"
  else if 60 ≤ total_secs then
    toString (total_secs / 60) ++ "m"
  else if 1 ≤ total_secs then
    toString total_secs ++ "s"
  else
    toString (duration / 1000000) ++ "ms"

/-- The decision taken by one `log` call, in the spec's terms. -/
inductive Decision where
  | emit (msg : String) : Decision
  | silent : Decision
  | notice (msg : String) (count : Nat) (duration : Nat) : Decision
deriving DecidableEq, Repr

/-- Result of one `log` call: the updated logger, the branch taken, the
`println!` lines in order, and the `#[cfg(test)]` captured strings. -/
structure StepResult where
  next : RateLog
  decision : Decision
  printed : List String
  captured : List String
deriving DecidableEq, Repr

/-- The notice text built by `log` when the limit is exceeded:
`format!("Message: \"{}\" repeat for {} times in the past {}", ...)`. -/
def noticeText (msg : String) (count : Nat) (duration : Nat) : String :=
  "Message: \"" ++ msg ++ "\" repeat for " ++ toString count ++
    " times in the past " ++ format_duration duration

/-- `RateLog::log(&mut self, msg)`, with the clock reading passed explicitly
as `now`.  Mirrors the source line by line: the new-message branch resets and
prints the message; the repeat branch increments the (wrapping `u32`) count,
adds `now.duration_since(last)` when a last timestamp exists, and on
`exceeds_limit` prints the notice text twice (once before `reset`, once
after) while pushing it to the test capture once; every call ends by setting
`last_timestamp := some now`. -/
def RateLog.log (r : RateLog) (msg : String) (now : Nat) : StepResult :=
  if r.message ≠ msg then
    let r1 : RateLog := { r with message := msg, current := r.current.reset }
    { next := { r1 with current := { r1.current with last_timestamp := some now } },
      decision := .emit msg,
      printed := [msg],
      captured := [msg] }
  else
    let c1 : State := { r.current with count := (r.current.count + 1) % 4294967296 }
    let c2 : State :=
      match c1.last_timestamp with
      | some last_call => { c1 with duration := c1.duration + (now - last_call) }
      | none => c1
    if c2.exceeds_limit r.limit then
      let output := noticeText msg c2.count c2.duration
      let c3 : State := c2.reset
      { next := { r with current := { c3 with last_timestamp := some now } },
        decision := .notice msg c2.count c2.duration,
        printed := [output, output],
        captured := [output] }
    else
      { next := { r with current := { c2 with last_timestamp := some now } },
        decision := .silent,
        printed := [],
        captured := [] }

/-- Decisions taken by a sequence of `log` calls, each given as a
`(message, now)` pair. -/
def decisionsOf (r : RateLog) : List (String × Nat) → List Decision
  | [] => []
  | (m, t) :: rest => (r.log m t).decision :: decisionsOf (r.log m t).next rest

/-- Logger state after a sequence of `log` calls. -/
def runLog (r : RateLog) : List (String × Nat) → RateLog
  | [] => r
  | (m, t) :: rest => runLog (r.log m t).next rest

/-- Sum of consecutive truncated gaps, starting from a previous timestamp:
the total the repeat branch accumulates across a run of calls. -/
def accGaps : Nat → List Nat → Nat
  | _, [] => 0
  | prev, t :: rest => (t - prev) + accGaps t rest

/-- New-message branch of `log`, fully characterized. -/
lemma log_new_branch (r : RateLog) (m : String) (t : Nat) (h : r.message ≠ m) :
    r.log m t =
      { next := { limit := r.limit, current := ⟨0, 0, some t⟩, message := m },
        decision := .emit m, printed := [m], captured := [m] } := by
  unfold RateLog.log
  rw [if_pos h]
  rfl

/-- Repeat branch of `log` for a count limit, below the threshold. -/
lemma log_repeat_rate_silent (r : RateLog) (n : Nat) (m : String) (t : Nat)
    (hm : r.message = m) (hl : r.limit = .rate n)
    (hlt : (r.current.count + 1) % 4294967296 < n) :
    (r.log m t).decision = Decision.silent ∧
    (r.log m t).next.message = r.message ∧
    (r.log m t).next.limit = r.limit ∧
    (r.log m t).next.current.count = (r.current.count + 1) % 4294967296 := by
  unfold RateLog.log
  rw [if_neg (not_not_intro hm)]
  cases hts : r.current.last_timestamp with
  | none =>
    simp only [hts, hl, State.exceeds_limit]
    rw [if_neg (by simpa using Nat.not_le.mpr hlt)]
    exact ⟨rfl, rfl, rfl, rfl⟩
  | some last_call =>
    simp only [hts, hl, State.exceeds_limit]
    rw [if_neg (by simpa using Nat.not_le.mpr hlt)]
    exact ⟨rfl, rfl, rfl, rfl⟩

/-- Repeat branch of `log` for a count limit, at or above the threshold. -/
lemma log_repeat_rate_notice (r : RateLog) (n : Nat) (m : String) (t : Nat)
    (hm : r.message = m) (hl : r.limit = .rate n)
    (hge : n ≤ (r.current.count + 1) % 4294967296) :
    (∃ d, (r.log m t).decision = Decision.notice m ((r.current.count + 1) % 4294967296) d) ∧
    (r.log m t).next.message = r.message ∧
    (r.log m t).next.limit = r.limit ∧
    (r.log m t).next.current = ⟨0, 0, some t⟩ := by
  unfold RateLog.log
  rw [if_neg (not_not_intro hm)]
  cases hts : r.current.last_timestamp with
  | none =>
    simp only [hts, hl, State.exceeds_limit]
    rw [if_pos (by simpa using hge)]
    exact ⟨⟨_, rfl⟩, rfl, rfl, rfl⟩
  | some last_call =>
    simp only [hts, hl, State.exceeds_limit]
    rw [if_pos (by simpa using hge)]
    exact ⟨⟨_, rfl⟩, rfl, rfl, rfl⟩

/-- Repeat branch of `log` for a duration limit with a last timestamp on
record, below the threshold. -/
lemma log_repeat_dur_silent (r : RateLog) (d : Nat) (m : String) (t prev : Nat)
    (hm : r.message = m) (hl : r.limit = .duration d)
    (hprev : r.current.last_timestamp = some prev)
    (hlt : r.current.duration + (t - prev) < d) :
    (r.log m t).decision = Decision.silent ∧
    (r.log m t).next.message = r.message ∧
    (r.log m t).next.limit = r.limit ∧
    (r.log m t).next.current =
      ⟨(r.current.count + 1) % 4294967296, r.current.duration + (t - prev), some t⟩ := by
  unfold RateLog.log
  rw [if_neg (not_not_intro hm)]
  simp only [hprev, hl, State.exceeds_limit]
  rw [if_neg (by simpa using Nat.not_le.mpr hlt)]
  exact ⟨rfl, rfl, rfl, rfl⟩

/-- Repeat branch of `log` for a duration limit with a last timestamp on
record, reaching the threshold. -/
lemma log_repeat_dur_notice (r : RateLog) (d : Nat) (m : String) (t prev : Nat)
    (hm : r.message = m) (hl : r.limit = .duration d)
    (hprev : r.current.last_timestamp = some prev)
    (hge : d ≤ r.current.duration + (t - prev)) :
    (r.log m t).decision =
      Decision.notice m ((r.current.count + 1) % 4294967296)
        (r.current.duration + (t - prev)) ∧
    (r.log m t).next.message = r.message ∧
    (r.log m t).next.limit = r.limit ∧
    (r.log m t).next.current = ⟨0, 0, some t⟩ := by
  unfold RateLog.log
  rw [if_neg (not_not_intro hm)]
  simp only [hprev, hl, State.exceeds_limit]
  rw [if_pos (by simpa using hge)]
  exact ⟨rfl, rfl, rfl, rfl⟩

/-- Any call whose decision is a notice was a repeat of the tracked message;
it leaves the identity and limit unchanged, resets count and duration,
stamps `last_timestamp` with the call time, prints the notice text twice and
captures it once. -/
lemma log_notice_char (r : RateLog) (m mm : String) (t : Nat) (cc dd : Nat)
    (h : (r.log m t).decision = Decision.notice mm cc dd) :
    r.message = m ∧ mm = m ∧
    (r.log m t).next = { r with current := ⟨0, 0, some t⟩ } ∧
    (r.log m t).printed = [noticeText mm cc dd, noticeText mm cc dd] ∧
    (r.log m t).captured = [noticeText mm cc dd] := by
  by_cases hm : r.message = m
  · refine ⟨hm, ?_⟩
    unfold RateLog.log at h ⊢
    rw [if_neg (not_not_intro hm)] at h ⊢
    cases hts : r.current.last_timestamp with
    | none =>
      simp only [hts] at h ⊢
      split at h
      next hex =>
        rw [if_pos hex]
        simp only [Decision.notice.injEq] at h
        obtain ⟨h1, h2, h3⟩ := h
        subst h1 h2 h3
        exact ⟨rfl, rfl, rfl, rfl⟩
      next hex =>
        exact absurd h (by simp)
    | some last_call =>
      simp only [hts] at h ⊢
      split at h
      next hex =>
        rw [if_pos hex]
        simp only [Decision.notice.injEq] at h
        obtain ⟨h1, h2, h3⟩ := h
        subst h1 h2 h3
        exact ⟨rfl, rfl, rfl, rfl⟩
      next hex =>
        exact absurd h (by simp)
  · rw [log_new_branch r m t hm] at h
    exact absurd h (by simp)

/-- Any call whose decision is silent leaves the limit and the tracked
identity unchanged and prints nothing. -/
lemma log_silent_char (r : RateLog) (m : String) (t : Nat)
    (h : (r.log m t).decision = Decision.silent) :
    (r.log m t).next.limit = r.limit ∧
    (r.log m t).next.message = r.message ∧
    (r.log m t).printed = [] ∧ (r.log m t).captured = [] := by
  by_cases hm : r.message = m
  · unfold RateLog.log at h ⊢
    rw [if_neg (not_not_intro hm)] at h ⊢
    cases hts : r.current.last_timestamp with
    | none =>
      simp only [hts] at h ⊢
      split at h
      next hex =>
        exact absurd h (by simp)
      next hex =>
        rw [if_neg hex]
        exact ⟨rfl, rfl, rfl, rfl⟩
    | some last_call =>
      simp only [hts] at h ⊢
      split at h
      next hex =>
        exact absurd h (by simp)
      next hex =>
        rw [if_neg hex]
        exact ⟨rfl, rfl, rfl, rfl⟩
  · rw [log_new_branch r m t hm] at h
    exact absurd h (by simp)

/-- Running a block of repeats of the tracked message under a count limit
`n`: if the current count plus the number of repeats equals `n`, every
repeat but the last is silent and the last one is a notice with count `n`. -/
lemma rate_run (n : Nat) (h32 : n < 4294967296) (m : String) :
    ∀ (ts : List Nat) (r : RateLog), ts ≠ [] → r.message = m →
      r.limit = Limit.rate n → r.current.count + ts.length = n →
      ∃ d, decisionsOf r (ts.map fun t => (m, t)) =
        List.replicate (ts.length - 1) Decision.silent ++ [Decision.notice m n d]
  | [], _, hne, _, _, _ => absurd rfl hne
  | t :: rest, r, _, hm, hl, hcnt => by
    cases rest with
    | nil =>
      have hc1 : r.current.count + 1 = n := by simpa using hcnt
      have hmod : (r.current.count + 1) % 4294967296 = n := by
        rw [hc1]; exact Nat.mod_eq_of_lt h32
      obtain ⟨⟨d, hd⟩, -, -, -⟩ :=
        log_repeat_rate_notice r n m t hm hl (by rw [hmod])
      refine ⟨d, ?_⟩
      simp only [List.map, decisionsOf, hd, hmod]
      rfl
    | cons t2 rest2 =>
      have hlt : r.current.count + 1 < n := by
        simp only [List.length_cons] at hcnt
        omega
      have hmod : (r.current.count + 1) % 4294967296 = r.current.count + 1 :=
        Nat.mod_eq_of_lt (lt_trans hlt h32)
      obtain ⟨hsil, hmsg, hlim, hcount⟩ :=
        log_repeat_rate_silent r n m t hm hl (by rw [hmod]; exact hlt)
      obtain ⟨d, hd⟩ :=
        rate_run n h32 m (t2 :: rest2) (r.log m t).next (by simp)
          (hmsg.trans hm) (hlim.trans hl)
          (by
            rw [hcount, hmod]
            simp only [List.length_cons] at hcnt ⊢
            omega)
      refine ⟨d, ?_⟩
      simp only [List.map, decisionsOf, hsil] at hd ⊢
      rw [hd]
      have hlen : (t2 :: rest2).length - 1 + 1 = (t2 :: rest2).length := by
        simp
      simp only [List.length_cons]
      rw [show rest2.length + 1 + 1 - 1 = (rest2.length + 1 - 1) + 1 by omega,
        List.replicate_succ]
      rfl

/-- One `log` call on a tracker with count limit `n` preserves the limit and
the invariant `count < n`, and can only announce a notice whose count is
exactly `n`. -/
lemma rate_step_inv (n : Nat) (h1 : 1 ≤ n) (h32 : n < 4294967296) (r : RateLog)
    (hl : r.limit = Limit.rate n) (hc : r.current.count < n) (m : String) (t : Nat) :
    (r.log m t).next.limit = Limit.rate n ∧
    (r.log m t).next.current.count < n ∧
    ∀ mm cc dd, (r.log m t).decision = Decision.notice mm cc dd → cc = n := by
  by_cases hm : r.message = m
  · have hmod : (r.current.count + 1) % 4294967296 = r.current.count + 1 :=
      Nat.mod_eq_of_lt (lt_of_le_of_lt hc h32)
    by_cases htr : n ≤ r.current.count + 1
    · have heq : r.current.count + 1 = n := le_antisymm hc htr
      obtain ⟨⟨d, hd⟩, -, hlim, hcur⟩ :=
        log_repeat_rate_notice r n m t hm hl (by rw [hmod]; exact htr)
      refine ⟨hlim.trans hl, by rw [hcur]; exact h1, ?_⟩
      intro mm cc dd hdec
      rw [hd] at hdec
      obtain ⟨-, h2, -⟩ := Decision.notice.injEq .. ▸ hdec
      rw [← h2, hmod, heq]
    · obtain ⟨hsil, -, hlim, hcount⟩ :=
        log_repeat_rate_silent r n m t hm hl
          (by rw [hmod]; exact Nat.not_le.mp htr)
      refine ⟨hlim.trans hl, ?_, ?_⟩
      · rw [hcount, hmod]
        exact Nat.not_le.mp htr
      · intro mm cc dd hdec
        rw [hsil] at hdec
        exact absurd hdec (by simp)
  · rw [log_new_branch r m t hm]
    exact ⟨hl, h1, fun mm cc dd hdec => absurd hdec (by simp)⟩

/-- The `count < n` invariant and the exact-count property, propagated over
any sequence of calls. -/
lemma rate_run_inv (n : Nat) (h1 : 1 ≤ n) (h32 : n < 4294967296) :
    ∀ (calls : List (String × Nat)) (r : RateLog),
      r.limit = Limit.rate n → r.current.count < n →
      (runLog r calls).current.count < n ∧
      ∀ dcs ∈ decisionsOf r calls,
        ∀ mm cc dd, dcs = Decision.notice mm cc dd → cc = n
  | [], r, _, hc => ⟨hc, by simp [decisionsOf]⟩
  | (m, t) :: rest, r, hl, hc => by
    obtain ⟨hlim, hcnt, hnot⟩ := rate_step_inv n h1 h32 r hl hc m t
    obtain ⟨ih1, ih2⟩ := rate_run_inv n h1 h32 rest (r.log m t).next hlim hcnt
    refine ⟨by simpa [runLog] using ih1, ?_⟩
    intro dcs hdcs mm cc dd hdec
    simp only [decisionsOf, List.mem_cons] at hdcs
    rcases hdcs with h | h
    · exact hnot mm cc dd (h ▸ hdec)
    · exact ih2 dcs h mm cc dd hdec

/-- Running a block of repeats of the tracked message under a duration
limit `dl`, starting from a recorded last timestamp `prev`: while the
accumulated duration stays below `dl` the repeats are silent, and the first
repeat where it reaches `dl` is a notice carrying the accumulated
duration. -/
lemma dur_run (dl : Nat) (m : String) :
    ∀ (ts : List Nat) (r : RateLog) (prev : Nat), ts ≠ [] →
      r.message = m → r.limit = Limit.duration dl →
      r.current.last_timestamp = some prev →
      r.current.count + ts.length < 4294967296 →
      (∀ j, 0 < j → j < ts.length →
        r.current.duration + accGaps prev (ts.take j) < dl) →
      dl ≤ r.current.duration + accGaps prev ts →
      decisionsOf r (ts.map fun t => (m, t)) =
        List.replicate (ts.length - 1) Decision.silent ++
          [Decision.notice m (r.current.count + ts.length)
            (r.current.duration + accGaps prev ts)]
  | [], _, _, hne, _, _, _, _, _, _ => absurd rfl hne
  | t :: rest, r, prev, _, hm, hl, hprev, hcnt, hbelow, hreach => by
    have hmod : (r.current.count + 1) % 4294967296 = r.current.count + 1 := by
      apply Nat.mod_eq_of_lt
      simp only [List.length_cons] at hcnt
      omega
    cases rest with
    | nil =>
      have hge : dl ≤ r.current.duration + (t - prev) := by
        simpa [accGaps] using hreach
      obtain ⟨hd, -, -, -⟩ := log_repeat_dur_notice r dl m t prev hm hl hprev hge
      simp only [List.map, decisionsOf, hd, hmod, accGaps]
      rfl
    | cons t2 rest2 =>
      have hlt : r.current.duration + (t - prev) < dl := by
        have := hbelow 1 (by omega) (by simp)
        simpa [accGaps] using this
      obtain ⟨hsil, hmsg, hlim, hcur⟩ := log_repeat_dur_silent r dl m t prev hm hl hprev hlt
      have hnext :
          decisionsOf (r.log m t).next ((t2 :: rest2).map fun x => (m, x)) =
            List.replicate ((t2 :: rest2).length - 1) Decision.silent ++
              [Decision.notice m
                ((r.log m t).next.current.count + (t2 :: rest2).length)
                ((r.log m t).next.current.duration + accGaps t (t2 :: rest2))] := by
        apply dur_run dl m (t2 :: rest2) (r.log m t).next t (by simp)
          (hmsg.trans hm) (hlim.trans hl)
        · rw [hcur]
        · rw [hcur]
          simp only [hmod, List.length_cons] at hcnt ⊢
          omega
        · intro j hj0 hjlen
          rw [hcur]
          have := hbelow (j + 1) (by omega)
            (by simp only [List.length_cons] at hjlen ⊢; omega)
          simp only [List.take, accGaps] at this
          simpa [Nat.add_assoc] using this
        · rw [hcur]
          simp only [accGaps] at hreach
          simpa [Nat.add_assoc] using hreach
      have hstep :
          decisionsOf r (List.map (fun x => (m, x)) (t :: t2 :: rest2)) =
            (r.log m t).decision ::
              decisionsOf (r.log m t).next (List.map (fun x => (m, x)) (t2 :: rest2)) := rfl
      rw [show (List.map (fun x => (m, x)) (t :: t2 :: rest2)) =
          (List.map (fun t => (m, t)) (t :: t2 :: rest2)) from rfl] at hstep
      rw [hstep, hsil, hnext, hcur]
      simp only [hmod, List.length_cons, accGaps]
      rw [show rest2.length + 1 + 1 - 1 = (rest2.length + 1 - 1) + 1 by omega,
        List.replicate_succ]
      simp [Nat.add_assoc, Nat.add_comm, Nat.add_left_comm]

/-- A repeat of the tracked message never produces an emit decision. -/
lemma log_repeat_not_emit (r : RateLog) (m : String) (t : Nat) (hm : r.message = m) :
    ∀ s, (r.log m t).decision ≠ Decision.emit s := by
  intro s hdec
  unfold RateLog.log at hdec
  rw [if_neg (not_not_intro hm)] at hdec
  cases hts : r.current.last_timestamp with
  | none =>
    simp only [hts] at hdec
    split at hdec
    · exact absurd hdec (by simp)
    · exact absurd hdec (by simp)
  | some last_call =>
    simp only [hts] at hdec
    split at hdec
    · exact absurd hdec (by simp)
    · exact absurd hdec (by simp)

/-- C1 (counterexample): a fresh tracker's `message` field is the empty
string, so the very first call with the empty-string message compares equal
to it, takes the repeat branch, and returns `Silent` — not `Emit("")` — and
nothing is printed. -/
theorem first_log_empty_string_not_emit :
    ((RateLog.new (Limit.rate 3)).log "" 0).decision ≠ Decision.emit "" ∧
    ((RateLog.new (Limit.rate 3)).log "" 0).decision = Decision.silent ∧
    ((RateLog.new (Limit.rate 3)).log "" 0).printed = [] := by decide

/-- C1 (amended): for every fresh tracker (any limit) and every nonempty
message `m`, the very first `log(m, t0)` takes the new-message branch and
emits `m` verbatim immediately; a first call with the empty string instead
takes the repeat branch and never emits. -/
theorem first_log_emits_nonempty (l : Limit) (m : String) (t : Nat) (hm : m ≠ "") :
    ((RateLog.new l).log m t).decision = Decision.emit m ∧
    ((RateLog.new l).log m t).printed = [m] ∧
    ((RateLog.new l).log m t).next.message = m ∧
    (∀ (l2 : Limit) (t2 : Nat) (s : String),
      ((RateLog.new l2).log "" t2).decision ≠ Decision.emit s) := by
  have hne : (RateLog.new l).message ≠ m := fun c => hm c.symm
  rw [log_new_branch (RateLog.new l) m t hne]
  refine ⟨rfl, rfl, rfl, ?_⟩
  intro l2 t2 s
  exact log_repeat_not_emit (RateLog.new l2) "" t2 rfl s

/-- C1 (witness): instantiation of the amended first-message property at
limit `Rate 3`, message "a", time 7. -/
theorem first_log_emits_nonempty_witness :
    ((RateLog.new (Limit.rate 3)).log "a" 7).decision = Decision.emit "a" :=
  (first_log_emits_nonempty (Limit.rate 3) "a" 7 (by decide)).1

/-- C2 (code bug): on a triggering call the notice text is pushed to the
test-capture field once, but `println!` is executed twice with the same
notice text (once before `reset`, once after), so the notice reaches the
stdout sink twice per trigger rather than exactly once. -/
theorem notice_printed_twice_concrete :
    (((RateLog.new (Limit.rate 1)).log "e" 0).next.log "e" 5).decision =
      Decision.notice "e" 1 5 ∧
    (((RateLog.new (Limit.rate 1)).log "e" 0).next.log "e" 5).printed =
      ["Message: \"e\" repeat for 1 times in the past 0ms",
        "Message: \"e\" repeat for 1 times in the past 0ms"] ∧
    (((RateLog.new (Limit.rate 1)).log "e" 0).next.log "e" 5).captured =
      ["Message: \"e\" repeat for 1 times in the past 0ms"] := by decide

/-- C3 (counterexample): a call that triggers at time 5 ends with
`last_timestamp = some 5`, not absent — `log` unconditionally stamps the
call time after the reset — and consequently the gap between the trigger
call and the next repeat (here 9 - 5 = 4) IS added to the accumulated
duration of the following cycle. -/
theorem last_timestamp_present_after_notice :
    (((RateLog.new (Limit.rate 1)).log "x" 0).next.log "x" 5).decision =
      Decision.notice "x" 1 5 ∧
    (((RateLog.new (Limit.rate 1)).log "x" 0).next.log "x" 5).next.current.last_timestamp
      ≠ none ∧
    ((((RateLog.new (Limit.rate 1)).log "x" 0).next.log "x" 5).next.log "x" 9).decision =
      Decision.notice "x" 1 4 := by decide

/-- C3 (amended): the reset operation itself (`State::new` at construction
and `State::reset` on identity change or trigger) clears all three fields,
but every `log` call — including one that returns a notice — ends by setting
`last_timestamp := some now`, so after a notice the state is
`⟨0, 0, some now⟩` rather than `⟨0, 0, none⟩`. -/
theorem reset_clears_state_notice_stamps_now (s : State) (r : RateLog)
    (m mm : String) (t cc dd : Nat)
    (h : (r.log m t).decision = Decision.notice mm cc dd) :
    (State.new = ⟨0, 0, none⟩ ∧ s.reset = ⟨0, 0, none⟩) ∧
    (r.log m t).next.current = ⟨0, 0, some t⟩ := by
  refine ⟨⟨rfl, rfl⟩, ?_⟩
  obtain ⟨-, -, hnext, -, -⟩ := log_notice_char r m mm t cc dd h
  rw [hnext]

/-- C3 (witness): the amended reset property at the concrete trigger
scenario (`Rate 1`, message "x", trigger at time 5). -/
theorem reset_clears_state_notice_stamps_now_witness :
    (State.new = ⟨0, 0, none⟩ ∧ State.new.reset = ⟨0, 0, none⟩) ∧
    (((RateLog.new (Limit.rate 1)).log "x" 0).next.log "x" 5).next.current =
      ⟨0, 0, some 5⟩ :=
  reset_clears_state_notice_stamps_now State.new
    ((RateLog.new (Limit.rate 1)).log "x" 0).next "x" "x" 5 1 5 (by decide)

/-- C6 (confirmed): `format_duration` picks units in the exact order hours
(total span at least 3600 s), minutes (at least 60 s), seconds (at least
1 s), else milliseconds, always by truncating division of the total span;
and the six documented sample values hold. -/
theorem format_duration_unit_selection :
    (∀ n : Nat, format_duration n =
      if 3600 ≤ n / 1000000000 then toString (n / 1000000000 / 3600) ++ "h"
      else if 60 ≤ n / 1000000000 then toString (n / 1000000000 / 60) ++ "m"
      else if 1 ≤ n / 1000000000 then toString (n / 1000000000) ++ "s"
      else toString (n / 1000000) ++ "ms") ∧
    format_duration (999 * 1000000) = "999ms" ∧
    format_duration (1000 * 1000000) = "1s" ∧
    format_duration (59999 * 1000000) = "59s" ∧
    format_duration (60000 * 1000000) = "1m" ∧
    format_duration (3599999 * 1000000) = "59m" ∧
    format_duration (3600000 * 1000000) = "1h" :=
  ⟨fun _ => rfl, by decide, by decide, by decide, by decide, by decide, by decide⟩

/-- C7 (confirmed): every string a triggering call writes (printed or
captured) is exactly the template
`Message: "{message}" repeat for {count} times in the past {duration}`
built from the notice's message, captured count, and the formatter's
rendering of the captured accumulated duration. -/
theorem notice_text_template (r : RateLog) (m mm : String) (t cc dd : Nat)
    (h : (r.log m t).decision = Decision.notice mm cc dd) :
    (∀ s ∈ (r.log m t).printed,
      s = "Message: \"" ++ mm ++ "\" repeat for " ++ toString cc ++
        " times in the past " ++ format_duration dd) ∧
    (∀ s ∈ (r.log m t).captured,
      s = "Message: \"" ++ mm ++ "\" repeat for " ++ toString cc ++
        " times in the past " ++ format_duration dd) := by
  obtain ⟨-, -, -, hp, hc⟩ := log_notice_char r m mm t cc dd h
  constructor
  · intro s hs
    rw [hp] at hs
    simp only [List.mem_cons, List.not_mem_nil, or_false] at hs
    rcases hs with h1 | h1 <;> (rw [h1]; rfl)
  · intro s hs
    rw [hc] at hs
    simp only [List.mem_cons, List.not_mem_nil, or_false] at hs
    rw [hs]; rfl

/-- C7 (witness): the template property at the concrete trigger scenario
(`Rate 1`, message "e", trigger at time 5, captured count 1, duration
5 ns). -/
theorem notice_text_template_witness :
    "Message: \"e\" repeat for 1 times in the past 0ms" =
      "Message: \"" ++ "e" ++ "\" repeat for " ++ toString 1 ++
        " times in the past " ++ format_duration 5 :=
  (notice_text_template ((RateLog.new (Limit.rate 1)).log "e" 0).next "e" "e" 5 1 5
    (by decide)).1 "Message: \"e\" repeat for 1 times in the past 0ms" (by decide)

/-- C9 (confirmed): a call decided `Silent` leaves the configured limit and
the tracked message identity unchanged and writes nothing. -/
theorem silent_frame (r : RateLog) (m : String) (t : Nat)
    (h : (r.log m t).decision = Decision.silent) :
    (r.log m t).next.limit = r.limit ∧
    (r.log m t).next.message = r.message ∧
    (r.log m t).printed = [] ∧ (r.log m t).captured = [] :=
  log_silent_char r m t h

/-- C9 (witness): the silent-frame property at the second call of the
`Rate 3` scenario. -/
theorem silent_frame_witness :
    (((RateLog.new (Limit.rate 3)).log "a" 0).next.log "a" 1).next.limit =
      ((RateLog.new (Limit.rate 3)).log "a" 0).next.limit ∧
    (((RateLog.new (Limit.rate 3)).log "a" 0).next.log "a" 1).next.message =
      ((RateLog.new (Limit.rate 3)).log "a" 0).next.message ∧
    (((RateLog.new (Limit.rate 3)).log "a" 0).next.log "a" 1).printed = [] ∧
    (((RateLog.new (Limit.rate 3)).log "a" 0).next.log "a" 1).captured = [] :=
  silent_frame ((RateLog.new (Limit.rate 3)).log "a" 0).next "a" 1 (by decide)

/-- C4 (confirmed): with count limit `Rate n` (`n` positive, a valid `u32`),
after the initial emit of a nonempty message the repeats 1..n-1 are silent
and the n-th repeat is a notice with count exactly `n`. -/
theorem rate_count_threshold (n : Nat) (h1 : 1 ≤ n) (h32 : n < 4294967296)
    (m : String) (hm : m ≠ "") (t0 : Nat) (ts : List Nat) (hts : ts.length = n) :
    ∃ d, decisionsOf (RateLog.new (Limit.rate n)) ((m, t0) :: ts.map fun t => (m, t)) =
      Decision.emit m ::
        (List.replicate (n - 1) Decision.silent ++ [Decision.notice m n d]) := by
  have hne : (RateLog.new (Limit.rate n)).message ≠ m := fun c => hm c.symm
  have hfirst := log_new_branch (RateLog.new (Limit.rate n)) m t0 hne
  obtain ⟨d, hd⟩ := rate_run n h32 m ts ((RateLog.new (Limit.rate n)).log m t0).next
    (by intro c; rw [c] at hts; simp at hts; omega)
    (by rw [hfirst]) (by rw [hfirst]; rfl) (by rw [hfirst]; simpa using hts)
  rw [hts] at hd
  refine ⟨d, ?_⟩
  have hstep :
      decisionsOf (RateLog.new (Limit.rate n)) ((m, t0) :: ts.map fun t => (m, t)) =
        ((RateLog.new (Limit.rate n)).log m t0).decision ::
          decisionsOf ((RateLog.new (Limit.rate n)).log m t0).next
            (ts.map fun t => (m, t)) := rfl
  rw [hstep, hd, show ((RateLog.new (Limit.rate n)).log m t0).decision =
    Decision.emit m by rw [hfirst]]

/-- C4 (witness): the count-threshold property at `n = 2`, message "x",
repeats at times 1 and 2. -/
theorem rate_count_threshold_witness :
    ∃ d, decisionsOf (RateLog.new (Limit.rate 2))
        (("x", 0) :: [1, 2].map fun t => ("x", t)) =
      Decision.emit "x" ::
        (List.replicate (2 - 1) Decision.silent ++ [Decision.notice "x" 2 d]) :=
  rate_count_threshold 2 (by decide) (by decide) "x" (by decide) 0 [1, 2] (by decide)

/-- C5 (confirmed): with duration limit `Duration dl` (`dl` positive), after
the initial emit of a nonempty message at `t0`, repeats are silent while the
cumulative inter-call gaps stay below `dl`, and the first repeat at which
they reach or exceed `dl` is a notice carrying the accumulated duration. -/
theorem duration_threshold (dl : Nat) (hd : 1 ≤ dl) (m : String) (hm : m ≠ "")
    (t0 : Nat) (ts : List Nat) (hne : ts ≠ []) (hlen : ts.length < 4294967296)
    (hbelow : ∀ j, 0 < j → j < ts.length → accGaps t0 (ts.take j) < dl)
    (hreach : dl ≤ accGaps t0 ts) :
    decisionsOf (RateLog.new (Limit.duration dl)) ((m, t0) :: ts.map fun t => (m, t)) =
      Decision.emit m ::
        (List.replicate (ts.length - 1) Decision.silent ++
          [Decision.notice m ts.length (accGaps t0 ts)]) := by
  have hne0 : (RateLog.new (Limit.duration dl)).message ≠ m := fun c => hm c.symm
  have hfirst := log_new_branch (RateLog.new (Limit.duration dl)) m t0 hne0
  have hrun := dur_run dl m ts ((RateLog.new (Limit.duration dl)).log m t0).next t0 hne
    (by rw [hfirst]) (by rw [hfirst]; rfl) (by rw [hfirst])
    (by rw [hfirst]; simpa using hlen)
    (by intro j hj0 hjl; rw [hfirst]; simpa using hbelow j hj0 hjl)
    (by rw [hfirst]; simpa using hreach)
  rw [hfirst] at hrun
  simp only [Nat.zero_add] at hrun
  have hstep :
      decisionsOf (RateLog.new (Limit.duration dl)) ((m, t0) :: ts.map fun t => (m, t)) =
        ((RateLog.new (Limit.duration dl)).log m t0).decision ::
          decisionsOf ((RateLog.new (Limit.duration dl)).log m t0).next
            (ts.map fun t => (m, t)) := rfl
  rw [hstep, hfirst]
  rw [hrun]

/-- C5 (witness): the duration-threshold property at `dl = 50` ns, message
"y", first call at 0, repeats at 20 and 60: gap 20 is below the limit,
20 + 40 = 60 reaches it, and the notice carries duration 60. -/
theorem duration_threshold_witness :
    decisionsOf (RateLog.new (Limit.duration 50))
        (("y", 0) :: [20, 60].map fun t => ("y", t)) =
      [Decision.emit "y", Decision.silent, Decision.notice "y" 2 60] :=
  duration_threshold 50 (by decide) "y" (by decide) 0 [20, 60] (by decide) (by decide)
    (by intro j hj0 hj2
        simp only [List.length_cons, List.length_nil] at hj2
        have hj : j = 1 := by omega
        subst hj
        decide)
    (by decide)

/-- C8 (confirmed): after a call that returns a notice, the tracked identity
is unchanged (still the same message), count and duration are reset to zero,
continuing with the same message can never produce an emit again, and under
a count limit the whole silent/notice cycle repeats from zero. -/
theorem post_trigger_continuation (r : RateLog) (m mm : String) (t cc dd : Nat)
    (h : (r.log m t).decision = Decision.notice mm cc dd) :
    (r.log m t).next.message = r.message ∧
    (r.log m t).next.message = m ∧
    (r.log m t).next.current.count = 0 ∧
    (r.log m t).next.current.duration = 0 ∧
    (∀ t2 s, ((r.log m t).next.log m t2).decision ≠ Decision.emit s) ∧
    (∀ n ts, r.limit = Limit.rate n → n < 4294967296 → ts ≠ [] → ts.length = n →
      ∃ d2, decisionsOf (r.log m t).next (ts.map fun x => (m, x)) =
        List.replicate (n - 1) Decision.silent ++ [Decision.notice m n d2]) := by
  obtain ⟨hm, hmm, hnext, -, -⟩ := log_notice_char r m mm t cc dd h
  refine ⟨by rw [hnext], by rw [hnext]; exact hm, by rw [hnext], by rw [hnext], ?_, ?_⟩
  · intro t2 s
    apply log_repeat_not_emit
    rw [hnext]; exact hm
  · intro n ts hl h32 hne hlen
    obtain ⟨d2, hd2⟩ := rate_run n h32 m ts (r.log m t).next hne
      (by rw [hnext]; exact hm) (by rw [hnext]; exact hl)
      (by rw [hnext]; simpa using hlen)
    rw [hlen] at hd2
    exact ⟨d2, hd2⟩

/-- C8 (witness): the post-trigger continuation property at the concrete
trigger scenario (`Rate 1`, message "x", trigger at time 5). -/
theorem post_trigger_continuation_witness :
    (((RateLog.new (Limit.rate 1)).log "x" 0).next.log "x" 5).next.current.count = 0 ∧
    (((RateLog.new (Limit.rate 1)).log "x" 0).next.log "x" 5).next.message = "x" :=
  ⟨(post_trigger_continuation ((RateLog.new (Limit.rate 1)).log "x" 0).next
      "x" "x" 5 1 5 (by decide)).2.2.1,
   (post_trigger_continuation ((RateLog.new (Limit.rate 1)).log "x" 0).next
      "x" "x" 5 1 5 (by decide)).2.1⟩

/-- C10 (confirmed): for a tracker built with `Rate n` (`n` positive, a
valid `u32`), after every call sequence the internal count is strictly below
`n`, and every notice ever decided by such a tracker carries count exactly
`n`. -/
theorem rate_count_invariant (n : Nat) (h1 : 1 ≤ n) (h32 : n < 4294967296)
    (calls : List (String × Nat)) :
    (runLog (RateLog.new (Limit.rate n)) calls).current.count < n ∧
    ∀ dcs ∈ decisionsOf (RateLog.new (Limit.rate n)) calls,
      ∀ mm cc dd, dcs = Decision.notice mm cc dd → cc = n :=
  rate_run_inv n h1 h32 calls (RateLog.new (Limit.rate n)) rfl h1

/-- C10 (witness): the count invariant at `n = 2` over a concrete mixed call
sequence containing a trigger and an identity change. -/
theorem rate_count_invariant_witness :
    (runLog (RateLog.new (Limit.rate 2))
      [("x", 0), ("x", 1), ("x", 2), ("y", 3)]).current.count < 2 :=
  (rate_count_invariant 2 (by decide) (by decide)
    [("x", 0), ("x", 1), ("x", 2), ("y", 3)]).1

end RateLogModel
